import Mathlib

/-!
Verification of the quantum-signal-processing (QSP) demonstration notebook.

The notebook builds, for a list of QSP phases, the alternating unitary
product S(phi_0) * prod_i [W(x) * S(phi_i)] symbolically (SymPy matrices in
a single symbolic variable x), builds the equivalent single-qubit Qiskit
circuit out of Rx / Rz rotations, and estimates measurement probabilities
by repeated execution on a backend.

The symbolic entries live in the ring C[x][s] / (s^2 = 1 - x^2): every
entry of the SymPy product is of the form a(x) + b(x) * sqrt(1 - x^2) with
complex polynomials a and b, which we represent as the pair (a, b).
Circuit-side unitaries are plain 2x2 complex matrices.
-/

namespace QSP

open Polynomial

/-- The polynomial 1 - x^2: the square of the radical sqrt(1 - x^2)
appearing in the entries of the SymPy matrices. -/
noncomputable def sqTerm : Polynomial ℂ := 1 - X ^ 2

/-- An element a(x) + b(x) * sqrt(1 - x^2) of the ring in which the SymPy
matrix entries of the notebook live. -/
structure SqExt where
  a : Polynomial ℂ
  b : Polynomial ℂ

/-- Addition of symbolic entries. -/
noncomputable def SqExt.add (e f : SqExt) : SqExt :=
  ⟨e.a + f.a, e.b + f.b⟩

/-- Multiplication of symbolic entries, reducing the square of the radical
to 1 - x^2. -/
noncomputable def SqExt.mul (e f : SqExt) : SqExt :=
  ⟨e.a * f.a + e.b * f.b * sqTerm, e.a * f.b + e.b * f.a⟩

/-- A 2x2 matrix of symbolic entries: the shape of the SymPy matrices
`expected_w`, `expected_s` and of the product built by `qsp_polynomial`. -/
structure Mat2 where
  m00 : SqExt
  m01 : SqExt
  m10 : SqExt
  m11 : SqExt

/-- Matrix product of symbolic 2x2 matrices (SymPy `*` on matrices). -/
noncomputable def Mat2.mul (M N : Mat2) : Mat2 :=
  ⟨(M.m00.mul N.m00).add (M.m01.mul N.m10),
   (M.m00.mul N.m01).add (M.m01.mul N.m11),
   (M.m10.mul N.m00).add (M.m11.mul N.m10),
   (M.m10.mul N.m01).add (M.m11.mul N.m11)⟩

/-- The symbolic identity matrix. -/
noncomputable def Mat2.one : Mat2 :=
  ⟨⟨1, 0⟩, ⟨0, 0⟩, ⟨0, 0⟩, ⟨1, 0⟩⟩

/-- Source `expected_w`: the SymPy matrix
[[x, i*sqrt(1-x^2)], [i*sqrt(1-x^2), x]]. -/
noncomputable def expected_w : Mat2 :=
  ⟨⟨X, 0⟩, ⟨0, C Complex.I⟩, ⟨0, C Complex.I⟩, ⟨X, 0⟩⟩

/-- Source `expected_s`: the SymPy matrix diag(exp(i*phi), exp(-i*phi)). -/
noncomputable def expected_s (φ : ℝ) : Mat2 :=
  ⟨⟨C (Complex.exp (Complex.I * φ)), 0⟩, ⟨0, 0⟩, ⟨0, 0⟩,
   ⟨C (Complex.exp (-(Complex.I * φ))), 0⟩⟩

/-- One iteration of the loop in `qsp_polynomial`:
`poly = poly * expected_w(x) * expected_s(phi)`. -/
noncomputable def qspStep (M : Mat2) (φ : ℝ) : Mat2 :=
  (M.mul expected_w).mul (expected_s φ)

/-- The matrix accumulated by the loop of `qsp_polynomial` over a non-empty
phase list (`[]` is mapped to the identity; `qsp_polynomial` itself never
uses that case). -/
noncomputable def qspMat : List ℝ → Mat2
  | [] => Mat2.one
  | φ₀ :: rest => rest.foldl qspStep (expected_s φ₀)

/-- Source `qsp_polynomial(x, phases)`: asserts that `phases` is non-empty
(modelled as `none`), starts from `expected_s(phases[0])`, multiplies by
`expected_w(x) * expected_s(phi)` for each later phase, and returns the
matrix together with its top-left and top-right entries. -/
noncomputable def qsp_polynomial (phases : List ℝ) : Option (Mat2 × SqExt × SqExt) :=
  match phases with
  | [] => none
  | φ₀ :: rest =>
    let poly := rest.foldl qspStep (expected_s φ₀)
    some (poly, poly.m00, poly.m01)

/-- Product of a list of symbolic matrices, multiplying to the right. -/
noncomputable def matListProd : List Mat2 → Mat2
  | [] => Mat2.one
  | M :: Ms => M.mul (matListProd Ms)

/-- The unitary written in the specification:
S(phi_0) * prod over i of [W(x) * S(phi_i)].  Stated independently of the
loop in the source so that `qsp_polynomial` can be compared against it. -/
noncomputable def specUnitary (φ₀ : ℝ) (rest : List ℝ) : Mat2 :=
  (expected_s φ₀).mul (matListProd (rest.map fun φ => expected_w.mul (expected_s φ)))

/-- A gate of the notebook circuits: `WGate(x)` is Rx(-2*arccos x) and
`SGate(phi)` is Rz(-2*phi), both on the single qubit. -/
inductive Gate
  | WGate (x : ℝ)
  | SGate (φ : ℝ)

/-- Source `qsp_circuit(x, phases)`: reverses the phases, applies
`SGate` for the first reversed phase (the IndexError on an empty list is
modelled as `none`), then appends `WGate(x)` and `SGate(phi)` for every
further reversed phase. -/
def qsp_circuit (x : ℝ) (phases : List ℝ) : Option (List Gate) :=
  match phases.reverse with
  | [] => none
  | φ :: rest =>
    some (rest.foldl (fun circ ψ => circ ++ [Gate.WGate x, Gate.SGate ψ]) [Gate.SGate φ])

/-- The gate pairs appended by the loop of `qsp_circuit`: a `WGate` and an
`SGate` for each phase traversed. -/
def wsGates (x : ℝ) : List ℝ → List Gate
  | [] => []
  | ψ :: t => Gate.WGate x :: Gate.SGate ψ :: wsGates x t

/-- A 2x2 complex matrix: the shape of simulated circuit unitaries. -/
structure CMat2 where
  e00 : ℂ
  e01 : ℂ
  e10 : ℂ
  e11 : ℂ

/-- Product of complex 2x2 matrices. -/
def CMat2.mul (U V : CMat2) : CMat2 :=
  ⟨U.e00 * V.e00 + U.e01 * V.e10,
   U.e00 * V.e01 + U.e01 * V.e11,
   U.e10 * V.e00 + U.e11 * V.e10,
   U.e10 * V.e01 + U.e11 * V.e11⟩

/-- The complex identity matrix. -/
def CMat2.one : CMat2 := ⟨1, 0, 0, 1⟩

/-- Conjugate transpose. -/
noncomputable def CMat2.dagger (U : CMat2) : CMat2 :=
  ⟨(starRingEnd ℂ) U.e00, (starRingEnd ℂ) U.e10,
   (starRingEnd ℂ) U.e01, (starRingEnd ℂ) U.e11⟩

/-- Scalar multiple of a complex 2x2 matrix. -/
def CMat2.smulC (c : ℂ) (U : CMat2) : CMat2 :=
  ⟨c * U.e00, c * U.e01, c * U.e10, c * U.e11⟩

/-- The Qiskit Rx(theta) matrix:
[[cos(theta/2), -i sin(theta/2)], [-i sin(theta/2), cos(theta/2)]]. -/
noncomputable def rxMat (θ : ℝ) : CMat2 :=
  ⟨(Real.cos (θ / 2) : ℝ), -Complex.I * (Real.sin (θ / 2) : ℝ),
   -Complex.I * (Real.sin (θ / 2) : ℝ), (Real.cos (θ / 2) : ℝ)⟩

/-- The Qiskit Rz(theta) matrix: diag(exp(-i theta/2), exp(i theta/2)). -/
noncomputable def rzMat (θ : ℝ) : CMat2 :=
  ⟨Complex.exp (-Complex.I * (θ / 2 : ℝ)), 0, 0, Complex.exp (Complex.I * (θ / 2 : ℝ))⟩

/-- The unitary of a single gate: `WGate(x)` performs `rx(-2.0 * acos(x))`
and `SGate(phi)` performs `rz(-2.0 * phi)`, as in the source classes. -/
noncomputable def gateMatrix : Gate → CMat2
  | .WGate x => rxMat (-2 * Real.arccos x)
  | .SGate φ => rzMat (-2 * φ)

/-- The unitary simulated for a gate list (Qiskit `Operator(circ).data`):
gates listed first are applied first, so each gate matrix is multiplied on
the left of the accumulated unitary. -/
noncomputable def circuitUnitary (gs : List Gate) : CMat2 :=
  gs.foldl (fun U g => (gateMatrix g).mul U) CMat2.one

/-- The numeric value of W(x). -/
noncomputable def cW (x : ℝ) : CMat2 :=
  ⟨(x : ℂ), Complex.I * (Real.sqrt (1 - x ^ 2) : ℝ),
   Complex.I * (Real.sqrt (1 - x ^ 2) : ℝ), (x : ℂ)⟩

/-- The numeric value of S(phi). -/
noncomputable def cS (φ : ℝ) : CMat2 :=
  ⟨Complex.exp (Complex.I * φ), 0, 0, Complex.exp (-(Complex.I * φ))⟩

/-- Numeric value of a symbolic entry at a real signal value x (SymPy
`evalf` with x substituted): the radical becomes sqrt(1 - x^2). -/
noncomputable def evalSqExt (x : ℝ) (e : SqExt) : ℂ :=
  e.a.eval (x : ℂ) + e.b.eval (x : ℂ) * (Real.sqrt (1 - x ^ 2) : ℝ)

/-- Numeric value of a symbolic matrix at a real signal value x. -/
noncomputable def evalMat2 (x : ℝ) (M : Mat2) : CMat2 :=
  ⟨evalSqExt x M.m00, evalSqExt x M.m01, evalSqExt x M.m10, evalSqExt x M.m11⟩

/-- The top-left entry returned by `qsp_polynomial`, evaluated at a real
signal value (0 in the unreachable empty case). -/
noncomputable def topLeftAt (x : ℝ) (phases : List ℝ) : ℂ :=
  ((qsp_polynomial phases).map fun t => evalSqExt x t.2.1).getD 0

/-- Modelled from the spec: the ideal probability of the all-zero outcome
for a single-qubit circuit with unitary U started in the zero state, i.e.
the limit of `estimateProbability` as shots tend to infinity.  The sampling
backend itself (`backend.run` / `job.result`) is external to the
repository, so only this Born-rule limit is modelled. -/
noncomputable def idealProbZero (U : CMat2) : ℝ :=
  Complex.normSq U.e00

/-- Result counts fetched from a job (`job.result().get_counts()`):
a finite mapping from observed outcomes to occurrence counts together with
the total number of shots.  Outcomes are read as numbers; the all-zero
bit-string is the outcome 0. -/
structure Counts where
  counts : ℕ → Option ℕ
  shots : ℕ

/-- The probability computed from one job in `simulate_polynomial`:
`counts.get('0', 0) / counts.shots()`. -/
noncomputable def estimateProbability (c : Counts) : ℝ :=
  (((c.counts 0).getD 0 : ℕ) : ℝ) / (c.shots : ℝ)

/-- Source `simulate_polynomial(circuit_function, xs, num_shots)`: first
submits one job per x (fire-all), then traverses the job list in
submission order computing the all-zero outcome probability of each.  The
external backend is a parameter mapping a circuit and shot count to the
counts its job eventually returns. -/
noncomputable def simulate_polynomial {α : Type} (run : α → ℕ → Counts)
    (circuit_function : ℝ → α) (xs : List ℝ) (num_shots : ℕ) : List ℝ :=
  let jobs := xs.map fun x => run (circuit_function x) num_shots
  jobs.map fun job => estimateProbability job

/-- Structure invariant of the QSP product with k factors of W: the
diagonal entries are polynomials of degree at most k, the off-diagonal
entries are the radical times polynomials of degree at most k - 1. -/
def degInvariant (k : ℕ) (M : Mat2) : Prop :=
  M.m00.b = 0 ∧ M.m01.a = 0 ∧ M.m10.a = 0 ∧ M.m11.b = 0 ∧
  M.m00.a.degree ≤ (k : WithBot ℕ) ∧ M.m11.a.degree ≤ (k : WithBot ℕ) ∧
  M.m01.b.degree + 1 ≤ (k : WithBot ℕ) ∧ M.m10.b.degree + 1 ≤ (k : WithBot ℕ)

/-- A complex 2x2 matrix is of QSP form when it is unitary and its bottom
row is determined by its top row by conjugation, as in
[[P, i Q s], [i conj(Q) s, conj(P)]] with s real. -/
noncomputable def IsQspForm (U : CMat2) : Prop :=
  U.mul U.dagger = CMat2.one ∧
  U.e11 = (starRingEnd ℂ) U.e00 ∧
  U.e10 = -((starRingEnd ℂ) U.e01)

theorem mat2MulAssoc (M N P : Mat2) : (M.mul N).mul P = M.mul (N.mul P) := by
  obtain ⟨⟨a00, b00⟩, ⟨a01, b01⟩, ⟨a10, b10⟩, ⟨a11, b11⟩⟩ := M
  obtain ⟨⟨c00, d00⟩, ⟨c01, d01⟩, ⟨c10, d10⟩, ⟨c11, d11⟩⟩ := N
  obtain ⟨⟨e00, f00⟩, ⟨e01, f01⟩, ⟨e10, f10⟩, ⟨e11, f11⟩⟩ := P
  simp only [Mat2.mul, SqExt.mul, SqExt.add, Mat2.mk.injEq, SqExt.mk.injEq]
  and_intros <;> ring

theorem mat2MulOne (M : Mat2) : M.mul Mat2.one = M := by
  obtain ⟨⟨a00, b00⟩, ⟨a01, b01⟩, ⟨a10, b10⟩, ⟨a11, b11⟩⟩ := M
  simp only [Mat2.mul, Mat2.one, SqExt.mul, SqExt.add, Mat2.mk.injEq, SqExt.mk.injEq]
  and_intros <;> ring

theorem mat2OneMul (M : Mat2) : Mat2.one.mul M = M := by
  obtain ⟨⟨a00, b00⟩, ⟨a01, b01⟩, ⟨a10, b10⟩, ⟨a11, b11⟩⟩ := M
  simp only [Mat2.mul, Mat2.one, SqExt.mul, SqExt.add, Mat2.mk.injEq, SqExt.mk.injEq]
  and_intros <;> ring

theorem cMulAssoc (U V T : CMat2) : (U.mul V).mul T = U.mul (V.mul T) := by
  obtain ⟨u00, u01, u10, u11⟩ := U
  obtain ⟨v00, v01, v10, v11⟩ := V
  obtain ⟨t00, t01, t10, t11⟩ := T
  simp only [CMat2.mul, CMat2.mk.injEq]
  and_intros <;> ring

theorem cMulOne (U : CMat2) : U.mul CMat2.one = U := by
  obtain ⟨u00, u01, u10, u11⟩ := U
  simp only [CMat2.mul, CMat2.one, CMat2.mk.injEq]
  and_intros <;> ring

theorem cOneMul (U : CMat2) : CMat2.one.mul U = U := by
  obtain ⟨u00, u01, u10, u11⟩ := U
  simp only [CMat2.mul, CMat2.one, CMat2.mk.injEq]
  and_intros <;> ring

theorem cDaggerMul (U V : CMat2) : (U.mul V).dagger = V.dagger.mul U.dagger := by
  obtain ⟨u00, u01, u10, u11⟩ := U
  obtain ⟨v00, v01, v10, v11⟩ := V
  simp only [CMat2.mul, CMat2.dagger, CMat2.mk.injEq, map_add, map_mul]
  and_intros <;> ring

theorem circuitUnitary_foldl (l : List Gate) (A : CMat2) :
    l.foldl (fun U g => (gateMatrix g).mul U) A = (circuitUnitary l).mul A := by
  induction l generalizing A with
  | nil => simp [circuitUnitary, cOneMul]
  | cons g l ih =>
    simp only [circuitUnitary, List.foldl_cons] at *
    rw [ih, ih ((gateMatrix g).mul CMat2.one), cMulAssoc, cMulAssoc,
      cOneMul]

theorem circuitUnitary_append (l₁ l₂ : List Gate) :
    circuitUnitary (l₁ ++ l₂) = (circuitUnitary l₂).mul (circuitUnitary l₁) := by
  simp only [circuitUnitary, List.foldl_append]
  exact circuitUnitary_foldl l₂ _

theorem evalSqExt_add (x : ℝ) (e f : SqExt) :
    evalSqExt x (e.add f) = evalSqExt x e + evalSqExt x f := by
  simp only [evalSqExt, SqExt.add, eval_add]
  ring

theorem evalSqExt_mul (x : ℝ) (h1 : -1 ≤ x) (h2 : x ≤ 1) (e f : SqExt) :
    evalSqExt x (e.mul f) = evalSqExt x e * evalSqExt x f := by
  have hnn : (0 : ℝ) ≤ 1 - x ^ 2 := by nlinarith
  have hs : ((Real.sqrt (1 - x ^ 2) : ℝ) : ℂ) * ((Real.sqrt (1 - x ^ 2) : ℝ) : ℂ)
      = 1 - (x : ℂ) ^ 2 := by
    rw [← Complex.ofReal_mul, Real.mul_self_sqrt hnn]
    push_cast
    ring
  simp only [evalSqExt, SqExt.mul, eval_add, eval_mul, sqTerm, eval_sub, eval_one,
    eval_pow, eval_X]
  linear_combination (-(e.b.eval (x : ℂ) * f.b.eval (x : ℂ))) * hs

theorem evalMat2_mul (x : ℝ) (h1 : -1 ≤ x) (h2 : x ≤ 1) (M N : Mat2) :
    evalMat2 x (M.mul N) = (evalMat2 x M).mul (evalMat2 x N) := by
  simp only [evalMat2, Mat2.mul, CMat2.mul, CMat2.mk.injEq, evalSqExt_add,
    evalSqExt_mul x h1 h2]


theorem evalMat2_w (x : ℝ) : evalMat2 x expected_w = cW x := by
  simp [evalMat2, expected_w, cW, evalSqExt]

theorem evalMat2_s (x : ℝ) (φ : ℝ) : evalMat2 x (expected_s φ) = cS φ := by
  simp [evalMat2, expected_s, cS, evalSqExt]

theorem gateMatrix_w (x : ℝ) (h1 : -1 ≤ x) (h2 : x ≤ 1) :
    gateMatrix (Gate.WGate x) = cW x := by
  have harg : (-2 * Real.arccos x) / 2 = -Real.arccos x := by ring
  simp only [gateMatrix, rxMat, cW, harg, Real.cos_neg, Real.sin_neg,
    Real.cos_arccos h1 h2, Real.sin_arccos]
  congr 1 <;> push_cast <;> ring

theorem gateMatrix_s (φ : ℝ) : gateMatrix (Gate.SGate φ) = cS φ := by
  have harg : (-2 * φ) / 2 = -φ := by ring
  simp only [gateMatrix, rzMat, cS, harg, CMat2.mk.injEq]
  refine ⟨?_, trivial, trivial, ?_⟩
  · rw [show -Complex.I * ((-φ : ℝ) : ℂ) = Complex.I * (φ : ℝ) by push_cast; ring]
  · rw [show Complex.I * ((-φ : ℝ) : ℂ) = -(Complex.I * (φ : ℝ)) by push_cast; ring]

theorem qspMat_concat (p : List ℝ) (hp : p ≠ []) (ψ : ℝ) :
    qspMat (p ++ [ψ]) = qspStep (qspMat p) ψ := by
  cases p with
  | nil => exact absurd rfl hp
  | cons φ₀ rest => simp [qspMat, List.foldl_append]

theorem evalMat2_step (x : ℝ) (h1 : -1 ≤ x) (h2 : x ≤ 1) (M : Mat2) (φ : ℝ) :
    evalMat2 x (qspStep M φ) = ((evalMat2 x M).mul (cW x)).mul (cS φ) := by
  rw [qspStep, evalMat2_mul x h1 h2, evalMat2_mul x h1 h2, evalMat2_w, evalMat2_s]

theorem circFold_eq (x : ℝ) (t : List ℝ) (acc : List Gate) :
    t.foldl (fun circ ψ => circ ++ [Gate.WGate x, Gate.SGate ψ]) acc
      = acc ++ wsGates x t := by
  induction t generalizing acc with
  | nil => simp [wsGates]
  | cons ψ t ih => simp [wsGates, ih, List.append_assoc]

theorem circuit_matches (x : ℝ) (h1 : -1 ≤ x) (h2 : x ≤ 1) :
    ∀ (t : List ℝ) (ψ : ℝ),
      circuitUnitary (Gate.SGate ψ :: wsGates x t)
        = evalMat2 x (qspMat (t.reverse ++ [ψ])) := by
  intro t
  induction t with
  | nil =>
    intro ψ
    simp only [wsGates, List.reverse_nil, List.nil_append, qspMat, List.foldl_nil,
      evalMat2_s]
    show (gateMatrix (Gate.SGate ψ)).mul CMat2.one = cS ψ
    rw [cMulOne, gateMatrix_s]
  | cons φ t ih =>
    intro ψ
    have hsplit : Gate.SGate ψ :: wsGates x (φ :: t)
        = [Gate.SGate ψ, Gate.WGate x] ++ (Gate.SGate φ :: wsGates x t) := by
      simp [wsGates]
    have hpair : circuitUnitary [Gate.SGate ψ, Gate.WGate x]
        = (cW x).mul (cS ψ) := by
      show (gateMatrix (Gate.WGate x)).mul ((gateMatrix (Gate.SGate ψ)).mul CMat2.one)
        = (cW x).mul (cS ψ)
      rw [cMulOne, gateMatrix_s, gateMatrix_w x h1 h2]
    have hne : t.reverse ++ [φ] ≠ [] := by simp
    rw [hsplit, circuitUnitary_append, ih φ, hpair,
      show (φ :: t).reverse ++ [ψ] = (t.reverse ++ [φ]) ++ [ψ] by simp,
      qspMat_concat _ hne, evalMat2_step x h1 h2, cMulAssoc]

theorem qsp_circuit_eq (x : ℝ) (phases : List ℝ) (ψ : ℝ) (t : List ℝ)
    (hrev : phases.reverse = ψ :: t) :
    qsp_circuit x phases = some (Gate.SGate ψ :: wsGates x t) := by
  have hdef : qsp_circuit x phases =
      match phases.reverse with
      | [] => none
      | φ :: rest =>
        some (rest.foldl (fun circ θ => circ ++ [Gate.WGate x, Gate.SGate θ])
          [Gate.SGate φ]) := rfl
  rw [hdef, hrev]
  simp [circFold_eq]

theorem reverse_cons_split (φ₀ : ℝ) (rest : List ℝ) :
    ∃ ψ t, (φ₀ :: rest).reverse = ψ :: t ∧ φ₀ :: rest = t.reverse ++ [ψ] := by
  cases hr : (φ₀ :: rest).reverse with
  | nil => simp at hr
  | cons a b =>
    refine ⟨a, b, rfl, ?_⟩
    have h3 := congrArg List.reverse hr
    simpa using h3

/-- C2: for every non-empty phase sequence and every x in [-1, 1], the
unitary simulated from the circuit built by `qsp_circuit` equals (exactly,
hence within any tolerance) the matrix built by `qsp_polynomial` evaluated
at the same x. -/
theorem qsp_circuit_simulates_qsp_polynomial (φ₀ : ℝ) (rest : List ℝ) (x : ℝ)
    (h1 : -1 ≤ x) (h2 : x ≤ 1) :
    (qsp_circuit x (φ₀ :: rest)).map circuitUnitary
      = some (evalMat2 x (qspMat (φ₀ :: rest))) := by
  obtain ⟨ψ, t, hrev, hph⟩ := reverse_cons_split φ₀ rest
  rw [qsp_circuit_eq x _ ψ t hrev]
  simp only [Option.map_some']
  rw [circuit_matches x h1 h2 t ψ, ← hph]

/-- Witness for C2 at phases [0] and x = 0. -/
theorem qsp_circuit_simulates_qsp_polynomial_witness :
    ((-1 : ℝ) ≤ 0 ∧ (0 : ℝ) ≤ 1) ∧
    (qsp_circuit 0 [0]).map circuitUnitary = some (evalMat2 0 (qspMat [0])) :=
  ⟨⟨by norm_num, by norm_num⟩,
    qsp_circuit_simulates_qsp_polynomial 0 [] 0 (by norm_num) (by norm_num)⟩

/-- C5: the empty phase sequence is rejected immediately by both builders
(`qsp_polynomial` through its assertion, `qsp_circuit` through indexing the
empty reversed list): no matrix and no circuit is produced, and no remote
interaction is involved in either function. -/
theorem empty_phases_rejected (x : ℝ) :
    qsp_polynomial ([] : List ℝ) = none ∧ qsp_circuit x ([] : List ℝ) = none :=
  ⟨rfl, rfl⟩

/-- C9: for a single phase, `qsp_polynomial` returns S(phi) itself with no
W factor, its top-left entry evaluates to exp(i*phi) independently of x,
and `qsp_circuit` builds the single-gate circuit [SGate(phi)]. -/
theorem singleton_phase (φ : ℝ) (x : ℝ) :
    qsp_polynomial [φ] = some (expected_s φ, (expected_s φ).m00, (expected_s φ).m01) ∧
    qsp_circuit x [φ] = some [Gate.SGate φ] ∧
    evalSqExt x (expected_s φ).m00 = Complex.exp (Complex.I * φ) := by
  refine ⟨rfl, ?_, ?_⟩
  · have hc := qsp_circuit_eq x [φ] φ [] (by simp)
    simpa [wsGates] using hc
  · simp [expected_s, evalSqExt]

/-- C4: `simulate_polynomial` returns one probability per input value, in
input order: the output has the length of `xs` and its i-th entry is the
probability computed from the counts of the job submitted for `xs[i]`;
each entry depends only on its own x (independent evaluations). -/
theorem simulate_polynomial_sweep {α : Type} (run : α → ℕ → Counts)
    (circuit_function : ℝ → α) (xs : List ℝ) (num_shots : ℕ) :
    (simulate_polynomial run circuit_function xs num_shots).length = xs.length ∧
    ∀ i : ℕ, (simulate_polynomial run circuit_function xs num_shots)[i]?
      = (xs[i]?).map fun x => estimateProbability (run (circuit_function x) num_shots) := by
  constructor
  · simp [simulate_polynomial]
  · intro i
    simp only [simulate_polynomial, List.getElem?_map, Option.map_map]
    rfl

/-- C6: the probability computed from a job's counts is the count of the
all-zero outcome (0 when absent) divided by the shots, and lies in [0, 1]
whenever the counts are well formed (total at least the all-zero count,
positive shots). -/
theorem estimateProbability_fraction (c : Counts)
    (hle : (c.counts 0).getD 0 ≤ c.shots) (hpos : 0 < c.shots) :
    estimateProbability c = (((c.counts 0).getD 0 : ℕ) : ℝ) / (c.shots : ℝ) ∧
    0 ≤ estimateProbability c ∧ estimateProbability c ≤ 1 := by
  refine ⟨rfl, ?_, ?_⟩
  · exact div_nonneg (by positivity) (by positivity)
  · rw [estimateProbability, div_le_one (by exact_mod_cast hpos)]
    exact_mod_cast hle

/-- Witness for C6 on counts mapping outcome 0 to 1 hit out of 2 shots. -/
theorem estimateProbability_fraction_witness :
    (((Counts.mk (fun k => if k = 0 then some 1 else none) 2).counts 0).getD 0
        ≤ (Counts.mk (fun k => if k = 0 then some 1 else none) 2).shots ∧
      0 < (Counts.mk (fun k => if k = 0 then some 1 else none) 2).shots) ∧
    (0 ≤ estimateProbability (Counts.mk (fun k => if k = 0 then some 1 else none) 2) ∧
      estimateProbability (Counts.mk (fun k => if k = 0 then some 1 else none) 2) ≤ 1) :=
  ⟨⟨by decide, by decide⟩,
    (estimateProbability_fraction _ (by decide) (by decide)).2⟩

/-- C3: the squared magnitude of the top-left entry of the QSP matrix at x
equals the ideal all-zero-outcome probability (the shots-to-infinity limit
of the estimated probability) of the corresponding circuit; in particular
a single W rotation at x = 1/2 has all-zero probability
cos(arccos(1/2))^2 = 1/4. -/
theorem born_probability (φ₀ : ℝ) (rest : List ℝ) (x : ℝ)
    (h1 : -1 ≤ x) (h2 : x ≤ 1) :
    (qsp_circuit x (φ₀ :: rest)).map (fun gs => idealProbZero (circuitUnitary gs))
      = some (Complex.normSq (evalSqExt x (qspMat (φ₀ :: rest)).m00)) ∧
    idealProbZero (circuitUnitary [Gate.WGate (1 / 2)]) = 1 / 4 := by
  constructor
  · obtain ⟨ψ, t, hrev, hph⟩ := reverse_cons_split φ₀ rest
    rw [qsp_circuit_eq x _ ψ t hrev]
    simp only [Option.map_some']
    rw [circuit_matches x h1 h2 t ψ, ← hph]
    rfl
  · have hg : gateMatrix (Gate.WGate (1 / 2)) = cW (1 / 2) :=
      gateMatrix_w _ (by norm_num) (by norm_num)
    show idealProbZero ((gateMatrix (Gate.WGate (1 / 2))).mul CMat2.one) = 1 / 4
    rw [cMulOne, hg]
    simp only [idealProbZero, cW, Complex.normSq_ofReal]
    norm_num

/-- Witness for C3 at phases [0] and x = 0. -/
theorem born_probability_witness :
    ((-1 : ℝ) ≤ 0 ∧ (0 : ℝ) ≤ 1) ∧
    ((qsp_circuit 0 [0]).map (fun gs => idealProbZero (circuitUnitary gs))
        = some (Complex.normSq (evalSqExt 0 (qspMat [0]).m00)) ∧
      idealProbZero (circuitUnitary [Gate.WGate (1 / 2)]) = 1 / 4) :=
  ⟨⟨by norm_num, by norm_num⟩, born_probability 0 [] 0 (by norm_num) (by norm_num)⟩

theorem foldl_qspStep_eq (rest : List ℝ) : ∀ A : Mat2,
    rest.foldl qspStep A
      = A.mul (matListProd (rest.map fun φ => expected_w.mul (expected_s φ))) := by
  induction rest with
  | nil =>
    intro A
    simp [matListProd, mat2MulOne]
  | cons φ rest ih =>
    intro A
    simp only [List.foldl_cons, List.map_cons, matListProd]
    rw [ih (qspStep A φ), qspStep, mat2MulAssoc A expected_w (expected_s φ),
      mat2MulAssoc A (expected_w.mul (expected_s φ))]

theorem degree_sqTerm_le : sqTerm.degree ≤ 2 := by
  rw [sqTerm]
  refine le_trans (degree_sub_le _ _) ?_
  simp [Polynomial.degree_one, Polynomial.degree_X_pow]

theorem qspStep_entries (p q r s : Polynomial ℂ) (φ : ℝ) :
    qspStep ⟨⟨p, 0⟩, ⟨0, q⟩, ⟨0, r⟩, ⟨s, 0⟩⟩ φ =
      ⟨⟨(p * X + q * C Complex.I * sqTerm) * C (Complex.exp (Complex.I * φ)), 0⟩,
       ⟨0, (p * C Complex.I + q * X) * C (Complex.exp (-(Complex.I * φ)))⟩,
       ⟨0, (r * X + s * C Complex.I) * C (Complex.exp (Complex.I * φ))⟩,
       ⟨(r * C Complex.I * sqTerm + s * X) * C (Complex.exp (-(Complex.I * φ))), 0⟩⟩ := by
  simp only [qspStep, Mat2.mul, SqExt.mul, SqExt.add, expected_w, expected_s,
    Mat2.mk.injEq, SqExt.mk.injEq]
  and_intros <;> ring

theorem natCast_add_one (k : ℕ) : ((k + 1 : ℕ) : WithBot ℕ) = (k : WithBot ℕ) + 1 := by
  push_cast
  rfl

theorem degree_diag_bound (p q : Polynomial ℂ) (z : ℂ) (k : ℕ)
    (hp : p.degree ≤ (k : WithBot ℕ)) (hq : q.degree + 1 ≤ (k : WithBot ℕ)) :
    ((p * X + q * C Complex.I * sqTerm) * C z).degree ≤ ((k + 1 : ℕ) : WithBot ℕ) := by
  rw [natCast_add_one]
  have h11 : (1 : WithBot ℕ) + 1 = 2 := by norm_num
  have hq2 : q.degree + 2 ≤ (k : WithBot ℕ) + 1 := by
    rw [show q.degree + 2 = (q.degree + 1) + 1 by rw [add_assoc, h11]]
    exact add_le_add_right hq 1
  have ha : (p * X).degree ≤ (k : WithBot ℕ) + 1 :=
    le_trans (degree_mul_le _ _) (add_le_add hp degree_X_le)
  have hb : (q * C Complex.I * sqTerm).degree ≤ (k : WithBot ℕ) + 1 := by
    calc (q * C Complex.I * sqTerm).degree
        ≤ (q * C Complex.I).degree + sqTerm.degree := degree_mul_le _ _
      _ ≤ (q.degree + (C Complex.I).degree) + 2 :=
          add_le_add (degree_mul_le _ _) degree_sqTerm_le
      _ ≤ (q.degree + 0) + 2 := add_le_add_right (add_le_add_left degree_C_le _) _
      _ = q.degree + 2 := by rw [add_zero]
      _ ≤ (k : WithBot ℕ) + 1 := hq2
  calc ((p * X + q * C Complex.I * sqTerm) * C z).degree
      ≤ (p * X + q * C Complex.I * sqTerm).degree + (C z).degree := degree_mul_le _ _
    _ ≤ (p * X + q * C Complex.I * sqTerm).degree + 0 := add_le_add_left degree_C_le _
    _ = (p * X + q * C Complex.I * sqTerm).degree := add_zero _
    _ ≤ max (p * X).degree (q * C Complex.I * sqTerm).degree := degree_add_le _ _
    _ ≤ (k : WithBot ℕ) + 1 := max_le ha hb

theorem degree_off_bound (p q : Polynomial ℂ) (z : ℂ) (k : ℕ)
    (hp : p.degree ≤ (k : WithBot ℕ)) (hq : q.degree + 1 ≤ (k : WithBot ℕ)) :
    ((p * C Complex.I + q * X) * C z).degree + 1 ≤ ((k + 1 : ℕ) : WithBot ℕ) := by
  rw [natCast_add_one]
  have hpc : (p * C Complex.I).degree ≤ (k : WithBot ℕ) := by
    refine le_trans (degree_mul_le _ _) ?_
    have h3 := add_le_add hp (degree_C_le (a := Complex.I))
    simpa using h3
  have hqx : (q * X).degree ≤ (k : WithBot ℕ) :=
    le_trans (degree_mul_le _ _) (le_trans (add_le_add_left degree_X_le _) hq)
  have hsum : (p * C Complex.I + q * X).degree ≤ (k : WithBot ℕ) :=
    le_trans (degree_add_le _ _) (max_le hpc hqx)
  have hmul : ((p * C Complex.I + q * X) * C z).degree ≤ (k : WithBot ℕ) := by
    refine le_trans (degree_mul_le _ _) ?_
    have h3 := add_le_add hsum (degree_C_le (a := z))
    simpa using h3
  exact add_le_add_right hmul 1

theorem degInvariant_step (k : ℕ) (M : Mat2) (φ : ℝ) (h : degInvariant k M) :
    degInvariant (k + 1) (qspStep M φ) := by
  obtain ⟨⟨p, b0⟩, ⟨a1, q⟩, ⟨a2, r⟩, ⟨s, b3⟩⟩ := M
  obtain ⟨hb0, ha1, ha2, hb3, hdp, hds, hdq, hdr⟩ := h
  simp only at hb0 ha1 ha2 hb3 hdp hds hdq hdr
  subst hb0 ha1 ha2 hb3
  rw [qspStep_entries]
  refine ⟨rfl, rfl, rfl, rfl, degree_diag_bound p q _ k hdp hdq, ?_, ?_, ?_⟩
  · rw [show r * C Complex.I * sqTerm + s * X = s * X + r * C Complex.I * sqTerm
      from add_comm _ _]
    exact degree_diag_bound s r _ k hds hdr
  · exact degree_off_bound p q _ k hdp hdq
  · rw [show r * X + s * C Complex.I = s * C Complex.I + r * X from add_comm _ _]
    exact degree_off_bound s r _ k hds hdr

theorem degInvariant_fold (rest : List ℝ) : ∀ (k : ℕ) (M : Mat2),
    degInvariant k M → degInvariant (k + rest.length) (rest.foldl qspStep M) := by
  induction rest with
  | nil =>
    intro k M h
    simpa using h
  | cons φ rest ih =>
    intro k M h
    simp only [List.foldl_cons, List.length_cons]
    have h2 := ih (k + 1) (qspStep M φ) (degInvariant_step k M φ h)
    have heq : k + (rest.length + 1) = k + 1 + rest.length := by omega
    rw [heq]
    exact h2

theorem degInvariant_s (φ : ℝ) : degInvariant 0 (expected_s φ) := by
  refine ⟨rfl, rfl, rfl, rfl, ?_, ?_, ?_, ?_⟩ <;> simp [expected_s]

/-- C1: `qsp_polynomial` on a non-empty phase list returns exactly the
matrix S(phi_0) * prod over i of [W(x) * S(phi_i)] of the specification,
together with its top-left and top-right entries; the top-left entry is a
polynomial in x (no radical part) of degree at most the number of phases
minus one. -/
theorem qsp_polynomial_matches_spec (φ₀ : ℝ) (rest : List ℝ) :
    qsp_polynomial (φ₀ :: rest)
      = some (specUnitary φ₀ rest, (specUnitary φ₀ rest).m00,
          (specUnitary φ₀ rest).m01) ∧
    (specUnitary φ₀ rest).m00.b = 0 ∧
    (specUnitary φ₀ rest).m00.a.degree ≤ (rest.length : WithBot ℕ) := by
  have hfold : rest.foldl qspStep (expected_s φ₀) = specUnitary φ₀ rest :=
    foldl_qspStep_eq rest (expected_s φ₀)
  have hinv := degInvariant_fold rest 0 (expected_s φ₀) (degInvariant_s φ₀)
  rw [hfold] at hinv
  simp only [Nat.zero_add] at hinv
  refine ⟨?_, hinv.1, hinv.2.2.2.2.1⟩
  rw [show qsp_polynomial (φ₀ :: rest)
      = some (rest.foldl qspStep (expected_s φ₀),
          (rest.foldl qspStep (expected_s φ₀)).m00,
          (rest.foldl qspStep (expected_s φ₀)).m01) from rfl, hfold]

theorem cS_mul (a b : ℝ) : (cS a).mul (cS b) = cS (a + b) := by
  simp only [cS, CMat2.mul, mul_zero, zero_mul, add_zero, zero_add]
  congr 1
  · rw [← Complex.exp_add]
    congr 1
    push_cast
    ring
  · rw [← Complex.exp_add]
    congr 1
    push_cast
    ring

theorem cS_zero : cS 0 = CMat2.one := by
  simp [cS, CMat2.one]

theorem cW_one : cW 1 = CMat2.one := by
  simp [cW, CMat2.one, show (1 : ℝ) - 1 ^ 2 = 0 by norm_num]

theorem cW_negone : cW (-1) = CMat2.smulC (-1) CMat2.one := by
  simp [cW, CMat2.one, CMat2.smulC, show (1 : ℝ) - (-1 : ℝ) ^ 2 = 0 by norm_num]

theorem smulC_one_left (U : CMat2) : CMat2.smulC 1 U = U := by
  simp [CMat2.smulC]

theorem smulC_mul_left (c : ℂ) (U V : CMat2) :
    (CMat2.smulC c U).mul V = CMat2.smulC c (U.mul V) := by
  simp only [CMat2.mul, CMat2.smulC]
  congr 1 <;> ring

theorem smulC_mul_right (c : ℂ) (U V : CMat2) :
    U.mul (CMat2.smulC c V) = CMat2.smulC c (U.mul V) := by
  simp only [CMat2.mul, CMat2.smulC]
  congr 1 <;> ring

theorem smulC_smulC (c d : ℂ) (U : CMat2) :
    CMat2.smulC c (CMat2.smulC d U) = CMat2.smulC (c * d) U := by
  simp only [CMat2.smulC]
  congr 1 <;> ring

theorem evalMat2_fold_one (rest : List ℝ) : ∀ M : Mat2,
    evalMat2 1 (rest.foldl qspStep M) = (evalMat2 1 M).mul (cS rest.sum) := by
  induction rest with
  | nil =>
    intro M
    simp only [List.foldl_nil, List.sum_nil, cS_zero, cMulOne]
  | cons φ rest ih =>
    intro M
    simp only [List.foldl_cons, List.sum_cons]
    rw [ih (qspStep M φ), evalMat2_step 1 (by norm_num) (by norm_num), cW_one,
      cMulOne, cMulAssoc, cS_mul]

theorem evalMat2_fold_negone (rest : List ℝ) : ∀ M : Mat2,
    evalMat2 (-1) (rest.foldl qspStep M)
      = CMat2.smulC ((-1) ^ rest.length) ((evalMat2 (-1) M).mul (cS rest.sum)) := by
  induction rest with
  | nil =>
    intro M
    simp only [List.foldl_nil, List.sum_nil, List.length_nil, pow_zero, cS_zero,
      cMulOne, smulC_one_left]
  | cons φ rest ih =>
    intro M
    simp only [List.foldl_cons, List.sum_cons, List.length_cons]
    rw [ih (qspStep M φ), evalMat2_step (-1) (by norm_num) (by norm_num), cW_negone,
      smulC_mul_right, cMulOne, smulC_mul_left, smulC_mul_left, smulC_smulC,
      cMulAssoc, cS_mul, pow_succ]

/-- C7 counterexample: for the phase sequence [pi/2] the top-left entry of
`qsp_polynomial` at the boundary x = 1 evaluates to i, which is not a real
value: the claim that the boundary entry is real fails. -/
theorem boundary_entry_not_real :
    topLeftAt 1 [Real.pi / 2] = Complex.I ∧ Complex.I.im ≠ 0 := by
  constructor
  · show evalSqExt 1 (expected_s (Real.pi / 2)).m00 = Complex.I
    simp only [expected_s, evalSqExt, eval_C, eval_zero, zero_mul, add_zero]
    rw [mul_comm Complex.I _, Complex.exp_mul_I, ← Complex.ofReal_cos,
      ← Complex.ofReal_sin, Real.cos_pi_div_two, Real.sin_pi_div_two]
    simp
  · simp

/-- C7 (amended): `qsp_polynomial` produces a result at x = 1 and x = -1
without error (the radical part vanishes there), and the top-left entry
takes the definite boundary values exp(i * sum of phases) at x = 1 and
(-1)^d * exp(i * sum of phases) at x = -1 — unit-modulus complex values
that are real only when the phase sum is a multiple of pi. -/
theorem qsp_boundary_values (φ₀ : ℝ) (rest : List ℝ) :
    (qsp_polynomial (φ₀ :: rest)).isSome = true ∧
    topLeftAt 1 (φ₀ :: rest) = Complex.exp (Complex.I * ((φ₀ + rest.sum : ℝ) : ℂ)) ∧
    topLeftAt (-1) (φ₀ :: rest)
      = (-1) ^ rest.length * Complex.exp (Complex.I * ((φ₀ + rest.sum : ℝ) : ℂ)) := by
  refine ⟨rfl, ?_, ?_⟩
  · show (evalMat2 1 (rest.foldl qspStep (expected_s φ₀))).e00 = _
    rw [evalMat2_fold_one rest (expected_s φ₀), evalMat2_s, cS_mul]
    rfl
  · show (evalMat2 (-1) (rest.foldl qspStep (expected_s φ₀))).e00 = _
    rw [evalMat2_fold_negone rest (expected_s φ₀), evalMat2_s, cS_mul]
    rfl

/-- C8: the regression fixture — for phases [0.1, 0.2, 0.3, 0.4] and x = 0
the top-left entry of the matrix returned by `qsp_polynomial` evaluates to
the fixed complex number 0 (the degree-3 parity of the product leaves no
constant term). -/
theorem qsp_regression_value :
    topLeftAt 0 [0.1, 0.2, 0.3, 0.4] = 0 := by
  show (evalMat2 0 (([0.2, 0.3, 0.4] : List ℝ).foldl qspStep (expected_s 0.1))).e00 = 0
  rw [show (([0.2, 0.3, 0.4] : List ℝ).foldl qspStep (expected_s 0.1))
      = qspStep (qspStep (qspStep (expected_s 0.1) 0.2) 0.3) 0.4 from rfl,
    evalMat2_step 0 (by norm_num) (by norm_num),
    evalMat2_step 0 (by norm_num) (by norm_num),
    evalMat2_step 0 (by norm_num) (by norm_num), evalMat2_s]
  have hw : cW 0 = ⟨0, Complex.I, Complex.I, 0⟩ := by
    simp [cW, show (1 : ℝ) - 0 ^ 2 = 1 by norm_num]
  rw [hw]
  simp only [cS, CMat2.mul]
  ring_nf

theorem isQspForm_mul (U V : CMat2) (hU : IsQspForm U) (hV : IsQspForm V) :
    IsQspForm (U.mul V) := by
  obtain ⟨hU1, hU2, hU3⟩ := hU
  obtain ⟨hV1, hV2, hV3⟩ := hV
  have hV01 : V.e01 = -((starRingEnd ℂ) V.e10) := by
    rw [hV3, map_neg, Complex.conj_conj, neg_neg]
  refine ⟨?_, ?_, ?_⟩
  · rw [cDaggerMul, cMulAssoc, ← cMulAssoc V V.dagger U.dagger, hV1,
      cOneMul, hU1]
  · simp only [CMat2.mul, hU2, hU3, hV2, hV01, map_add, map_mul, map_neg,
      Complex.conj_conj]
    ring
  · simp only [CMat2.mul, hU2, hU3, hV2, hV01, map_add, map_mul, map_neg,
      Complex.conj_conj]
    ring

theorem isQspForm_cS (φ : ℝ) : IsQspForm (cS φ) := by
  have hconj : (starRingEnd ℂ) (Complex.exp (Complex.I * (φ : ℂ)))
      = Complex.exp (-(Complex.I * (φ : ℂ))) := by
    rw [← Complex.exp_conj]
    congr 1
    simp [map_mul, Complex.conj_I, Complex.conj_ofReal]
  have hconj2 : (starRingEnd ℂ) (Complex.exp (-(Complex.I * (φ : ℂ))))
      = Complex.exp (Complex.I * (φ : ℂ)) := by
    rw [← Complex.exp_conj]
    congr 1
    simp [map_mul, Complex.conj_I, Complex.conj_ofReal]
  have hmul : Complex.exp (Complex.I * (φ : ℂ)) * Complex.exp (-(Complex.I * (φ : ℂ)))
      = 1 := by
    rw [← Complex.exp_add, add_neg_cancel, Complex.exp_zero]
  have hmul2 : Complex.exp (-(Complex.I * (φ : ℂ))) * Complex.exp (Complex.I * (φ : ℂ))
      = 1 := by
    rw [mul_comm]
    exact hmul
  refine ⟨?_, ?_, ?_⟩
  · simp [cS, CMat2.mul, CMat2.dagger, CMat2.one, hconj, hconj2, hmul, hmul2]
  · simp [cS, hconj]
  · simp [cS]

theorem isQspForm_cW (x : ℝ) (h1 : -1 ≤ x) (h2 : x ≤ 1) : IsQspForm (cW x) := by
  have hnn : (0 : ℝ) ≤ 1 - x ^ 2 := by nlinarith
  have hss : ((Real.sqrt (1 - x ^ 2) : ℝ) : ℂ) * ((Real.sqrt (1 - x ^ 2) : ℝ) : ℂ)
      = 1 - (x : ℂ) ^ 2 := by
    rw [← Complex.ofReal_mul, Real.mul_self_sqrt hnn]
    push_cast
    ring
  refine ⟨?_, ?_, ?_⟩
  · simp only [cW, CMat2.mul, CMat2.dagger, CMat2.one, map_mul, Complex.conj_I,
      Complex.conj_ofReal]
    congr 1
    · linear_combination hss + (-(((Real.sqrt (1 - x ^ 2) : ℝ) : ℂ) ^ 2)) * Complex.I_sq
    · ring
    · ring
    · linear_combination hss + (-(((Real.sqrt (1 - x ^ 2) : ℝ) : ℂ) ^ 2)) * Complex.I_sq
  · simp [cW, Complex.conj_ofReal]
  · simp [cW, map_mul, Complex.conj_I, Complex.conj_ofReal]

theorem isQspForm_fold (x : ℝ) (h1 : -1 ≤ x) (h2 : x ≤ 1) (rest : List ℝ) :
    ∀ M : Mat2, IsQspForm (evalMat2 x M)
      → IsQspForm (evalMat2 x (rest.foldl qspStep M)) := by
  induction rest with
  | nil =>
    intro M h
    simpa using h
  | cons φ rest ih =>
    intro M h
    simp only [List.foldl_cons]
    refine ih (qspStep M φ) ?_
    rw [evalMat2_step x h1 h2]
    exact isQspForm_mul _ _ (isQspForm_mul _ _ h (isQspForm_cW x h1 h2))
      (isQspForm_cS φ)

/-- C10: for real phases and real x in [-1, 1] the evaluated QSP matrix U
is unitary (U * U^dagger = I) and its bottom row is determined by its top
row: U11 is the conjugate of U00 and U10 is minus the conjugate of U01,
exactly the form [[P, iQs], [i conj(Q) s, conj(P)]] with s real. -/
theorem qsp_matrix_unitary (φ₀ : ℝ) (rest : List ℝ) (x : ℝ)
    (h1 : -1 ≤ x) (h2 : x ≤ 1) :
    (evalMat2 x (qspMat (φ₀ :: rest))).mul (evalMat2 x (qspMat (φ₀ :: rest))).dagger
      = CMat2.one ∧
    (evalMat2 x (qspMat (φ₀ :: rest))).e11
      = (starRingEnd ℂ) (evalMat2 x (qspMat (φ₀ :: rest))).e00 ∧
    (evalMat2 x (qspMat (φ₀ :: rest))).e10
      = -((starRingEnd ℂ) (evalMat2 x (qspMat (φ₀ :: rest))).e01) := by
  have hbase : IsQspForm (evalMat2 x (expected_s φ₀)) := by
    rw [evalMat2_s]
    exact isQspForm_cS φ₀
  exact isQspForm_fold x h1 h2 rest (expected_s φ₀) hbase

/-- Witness for C10 at phases [0] and x = 0. -/
theorem qsp_matrix_unitary_witness :
    ((-1 : ℝ) ≤ 0 ∧ (0 : ℝ) ≤ 1) ∧
    (evalMat2 0 (qspMat [0])).mul (evalMat2 0 (qspMat [0])).dagger = CMat2.one :=
  ⟨⟨by norm_num, by norm_num⟩, (qsp_matrix_unitary 0 [] 0 (by norm_num) (by norm_num)).1⟩

end QSP
